import Mathlib

/-!
Verification development for the `generate_libelles.py` script of the
`evolution` repository (package `evolution-generator`).

Strings are embedded as `List Char` (Python `len`/indexing is per code point,
matching `List Char` length).  The pattern-matching primitives below embed the
Python string operations used by the script:

  * `leadsWith p s`        — `s.startswith(p)`
  * `occursB p s`          — `p in s`
  * `countOcc p s`         — `s.count(p)` (non-overlapping, left to right)
  * `replaceFirst p r s`   — `s.replace(p, r, 1)`
  * `replaceAll p r s`     — `s.replace(p, r)`

All definitions are structurally recursive (loops over lists are driven by an
explicit fuel equal to the list length, which is always sufficient), so every
definition evaluates by kernel reduction on concrete inputs.

The four delimiter patterns of the script are nonempty; the behaviour of the
embeddings on an empty pattern is irrelevant to every theorem below.
-/

namespace Evolution

/-- Predicate `leadsWith p s`: true when the list `s` starts with the pattern `p`
(Python `s.startswith(p)`). -/
def leadsWith : List Char → List Char → Bool
  | [], _ => true
  | _ :: _, [] => false
  | a :: p, c :: s => if a = c then leadsWith p s else false

/-- Predicate `occursB p s`: true when `p` occurs as a contiguous sublist of `s`
(Python `p in s`; the script only uses nonempty `p`). -/
def occursB (p : List Char) : List Char → Bool
  | [] => false
  | c :: s => leadsWith p (c :: s) || occursB p s

/-- Fuel-driven worker for `countOcc`; the fuel bounds the number of scanned
positions and `countOcc` always supplies the length of the scanned list. -/
def countOccF (p : List Char) : Nat → List Char → Nat
  | _, [] => 0
  | 0, _ :: _ => 0
  | fuel + 1, c :: s =>
    if leadsWith p (c :: s) then countOccF p fuel (s.drop (p.length - 1)) + 1
    else countOccF p fuel s

/-- Function `countOcc p s` counts the non-overlapping occurrences of `p` in `s`,
scanning left to right (Python `s.count(p)` for nonempty `p`). -/
def countOcc (p s : List Char) : Nat := countOccF p s.length s

/-- Function `replaceFirst p r s` replaces the leftmost occurrence of `p` in `s` by `r`,
or returns `s` unchanged when `p` does not occur (Python `s.replace(p, r, 1)`
for nonempty `p`). -/
def replaceFirst (p r : List Char) : List Char → List Char
  | [] => []
  | c :: s =>
    if leadsWith p (c :: s) then r ++ s.drop (p.length - 1)
    else c :: replaceFirst p r s

/-- Fuel-driven worker for `replaceAll`. -/
def replaceAllF (p r : List Char) : Nat → List Char → List Char
  | _, [] => []
  | 0, c :: s => c :: s
  | fuel + 1, c :: s =>
    if leadsWith p (c :: s) then r ++ replaceAllF p r fuel (s.drop (p.length - 1))
    else c :: replaceAllF p r fuel s

/-- Function `replaceAll p r s` replaces every non-overlapping occurrence of `p` in `s`
by `r`, left to right (Python `s.replace(p, r)` for nonempty `p`). -/
def replaceAll (p r s : List Char) : List Char := replaceAllF p r s.length s

/-- Fuel-driven worker for `altReplace`. -/
def altReplaceF (p a b : List Char) : Nat → Nat → List Char → List Char
  | _, _, [] => []
  | _, 0, c :: s => c :: s
  | k, fuel + 1, c :: s =>
    if leadsWith p (c :: s) then
      (if k % 2 = 0 then a else b) ++ altReplaceF p a b (k + 1) fuel (s.drop (p.length - 1))
    else c :: altReplaceF p a b k fuel s

/-- Specification-side description of the alternating rewrite (from the spec's
words): the non-overlapping occurrences of `p` in `s`, taken left to right, are
replaced alternately by `a` and `b`; `k` is the index of the next occurrence
(even index gets `a`, odd index gets `b`). -/
def altReplace (p a b : List Char) (k : Nat) (s : List Char) : List Char :=
  altReplaceF p a b k s.length s

/-- Predicate `noEarlier p u v` says that in the string `u ++ p ++ v` no occurrence of
`p` starts strictly before position `u.length` — i.e. the displayed occurrence
of `p` is the leftmost one. -/
def noEarlier (p u v : List Char) : Prop :=
  ∀ u₂, u₂ <:+ u → u₂ ≠ [] → leadsWith p (u₂ ++ (p ++ v)) = false

/-- Predicate `safeBefore p w x` says that in the string `w ++ x` no occurrence of `p`
starts inside `w`. -/
def safeBefore (p w x : List Char) : Prop :=
  ∀ w₂, w₂ <:+ w → w₂ ≠ [] → leadsWith p (w₂ ++ x) = false

/-- Predicate `ruleOk p t` captures why inserting the tag `t` for an occurrence of the
delimiter `p` can never create a new occurrence of `p`: the tag starts with
`<` and ends with `>`, the delimiter contains neither `<` nor `>`, and the
delimiter does not occur inside the tag. -/
def ruleOk (p t : List Char) : Bool :=
  decide (p ≠ [] ∧ t ≠ [] ∧ ('<' ∉ p) ∧ ('>' ∉ p) ∧
    occursB p t = false ∧ t.head? = some '<' ∧ t.getLast? = some '>')

/-! Part: The script's replacement loop

`replaceStartEnd` embeds `ValueReplacer.replaceStartEnd` of the source:

    if notation in replacedStr and replacedStr.count(notation) % 2 == 0:
        replacedCount = 0
        while notation in replacedStr:
            replaceWith = startReplaced if replacedCount % 2 == 0 else endReplaced
            replacedStr = replacedStr.replace(notation, replaceWith, 1)
            replacedCount += 1
    return replacedStr

The unbounded `while` loop is modelled by `replLoop` with fuel equal to the
occurrence count of the delimiter; `none` means the loop was still running
after that many iterations.  For the script's four delimiter/tag rules each
iteration removes exactly one occurrence (`count_replaceFirst`), so that fuel
is exact and the loop always returns `some` (`loop_eq` below). -/

def replLoop (p a b : List Char) : Nat → Nat → List Char → Option (List Char)
  | _, 0, s => if occursB p s then none else some s
  | k, fuel + 1, s =>
    if occursB p s then
      replLoop p a b (k + 1) fuel (replaceFirst p (if k % 2 = 0 then a else b) s)
    else some s

def replaceStartEnd (s p a b : List Char) : Option (List Char) :=
  if occursB p s && countOcc p s % 2 == 0 then replLoop p a b 0 (countOcc p s) s
  else some s

/-- Specification-side description of one rewrite stage (from the spec's
words): if the delimiter occurs and its occurrence count is even, all its
occurrences are replaced alternately by the start and end tag, left to right;
otherwise the string is untouched. -/
def specStage (s p a b : List Char) : List Char :=
  if occursB p s && countOcc p s % 2 == 0 then altReplace p a b 0 s else s

/-! Part: The `ValueReplacer` class of the source

The four delimiter constants are named `boldNotation`, `obliqueNotation`,
`greenNotation` and `redNotation` in the Python source; they are rendered here
as `boldMark`, `obliqueMark`, `greenMark`, `redMark`. -/

namespace ValueReplacer

def startBoldHtml : List Char := "<strong>".toList

def endBoldHtml : List Char := "</strong>".toList

def boldMark : List Char := "**".toList

def startOblique : List Char := "<span class=\"_pale _oblique\">".toList

def endOblique : List Char := "</span>".toList

def obliqueMark : List Char := "__".toList

def startGreen : List Char := "<span style=\"color: green;\">".toList

def endGreen : List Char := "</span>".toList

def greenMark : List Char := "_green_".toList

def startRed : List Char := "<span style=\"color: red;\">".toList

def endRed : List Char := "</span>".toList

def redMark : List Char := "_red_".toList

def newlineMark : List Char := ['\n']

def brTag : List Char := "<br />".toList

/-- Embedding of `ValueReplacer.replace`: replace newlines by `<br />`, then
run the four delimiter stages in the source's fixed order. -/
def replace (s : List Char) : Option (List Char) :=
  (replaceStartEnd (replaceAll newlineMark brTag s) boldMark startBoldHtml endBoldHtml).bind
    fun r1 => (replaceStartEnd r1 obliqueMark startOblique endOblique).bind
      fun r2 => (replaceStartEnd r2 greenMark startGreen endGreen).bind
        fun r3 => replaceStartEnd r3 redMark startRed endRed

end ValueReplacer

/-- The four delimiter/tag rules of `ValueReplacer.replace`, in their fixed
order of application. -/
def markRules : List (List Char × List Char × List Char) :=
  [(ValueReplacer.boldMark, ValueReplacer.startBoldHtml, ValueReplacer.endBoldHtml),
   (ValueReplacer.obliqueMark, ValueReplacer.startOblique, ValueReplacer.endOblique),
   (ValueReplacer.greenMark, ValueReplacer.startGreen, ValueReplacer.endGreen),
   (ValueReplacer.redMark, ValueReplacer.startRed, ValueReplacer.endRed)]

/-- Specification-side description of the whole rewrite pipeline: newline
replacement followed by the four alternating stages in fixed order. -/
def specRewrite (s : List Char) : List Char :=
  specStage
    (specStage
      (specStage
        (specStage (replaceAll ValueReplacer.newlineMark ValueReplacer.brTag s)
          ValueReplacer.boldMark ValueReplacer.startBoldHtml ValueReplacer.endBoldHtml)
        ValueReplacer.obliqueMark ValueReplacer.startOblique ValueReplacer.endOblique)
      ValueReplacer.greenMark ValueReplacer.startGreen ValueReplacer.endGreen)
    ValueReplacer.redMark ValueReplacer.startRed ValueReplacer.endRed

/-! Part: The `TranslationLangNs` class of the source

A store owns one YAML file's data.  Python's insertion-ordered `dict` with
string keys is embedded as an association list: assigning to an existing key
replaces its value in place, assigning to a fresh key appends.  YAML scalar
values as produced by `stringToYaml` are either plain strings (inline scalars)
or `ruamel` `FoldedScalarString` wrappers (block/folded scalars). -/

/-- On-disk scalar representation of a translation value: `inline` for a plain
string, `folded` for a `ruamel.yaml.scalarstring.FoldedScalarString`. -/
inductive YamlScalar where
  | inline : List Char → YamlScalar
  | folded : List Char → YamlScalar
deriving DecidableEq

/-- Embedding of `TranslationLangNs.stringToYaml`. -/
def stringToYaml (s : List Char) : YamlScalar :=
  if '\n' ∈ s then YamlScalar.folded s
  else if 76 < s.length then YamlScalar.folded s
  else YamlScalar.inline s

/-- Python `path in self.data`. -/
def hasKey (d : List (String × YamlScalar)) (k : String) : Bool :=
  d.any fun kv => kv.1 == k

/-- Python `self.data[path] = v` on an insertion-ordered `dict`. -/
def dictSet (d : List (String × YamlScalar)) (k : String) (v : YamlScalar) :
    List (String × YamlScalar) :=
  if hasKey d k then d.map fun kv => if kv.1 == k then (kv.1, v) else kv
  else d ++ [(k, v)]

/-- Python `self.data[path]` as a total lookup. -/
def lookupKey (d : List (String × YamlScalar)) (k : String) : Option YamlScalar :=
  (d.find? fun kv => kv.1 == k).map fun kv => kv.2

/-- State of a `TranslationLangNs` object. -/
structure TranslationLangNs where
  modified : Bool
  data : List (String × YamlScalar)
  file : String
deriving DecidableEq

/-- Embedding of `TranslationLangNs.__init__`. -/
def initTranslationLangNs (f : String) : TranslationLangNs :=
  { modified := false, data := [], file := f }

/-- Embedding of `TranslationLangNs.loadCurrentTranslations`.  The external
YAML parse is a parameter: `some entries` is a successful parse into an
ordered string-keyed mapping, `none` is any parse failure (including a file
whose content is not such a mapping).  On success every loaded value goes
through `stringToYaml`; on failure the method raises, naming the file. -/
def loadCurrentTranslations (st : TranslationLangNs)
    (parsed : Option (List (String × List Char))) : Except String TranslationLangNs :=
  match parsed with
  | none => Except.error ("Error loading translation yaml file " ++ st.file)
  | some entries =>
    Except.ok { st with
      data := entries.foldl (fun acc kv => dictSet acc kv.1 (stringToYaml kv.2)) [] }

/-- The fixed header comment block written by `TranslationLangNs.save`. -/
def generatedHeader : List String :=
  ["# This file was automatically generated by the Evolution Generator.",
   "# The Evolution Generator is used to automate the creation of consistent, reliable code.",
   "# Any changes made to this file will be overwritten.",
   ""]

/-- A file write performed by `save`. -/
structure YamlWrite where
  path : String
  headerComment : List String
  body : List (String × YamlScalar)
deriving DecidableEq

/-- Embedding of `TranslationLangNs.save`: writes the header and the data only
when the store is dirty, otherwise performs no write at all (`none`). -/
def save (st : TranslationLangNs) : Option YamlWrite :=
  if st.modified then some ⟨st.file, generatedHeader, st.data⟩ else none

def nomMark : List Char := "[nom]".toList

def nicknameTok : List Char := "\x7b\x7bnickname\x7d\x7d".toList

/-- Embedding of `TranslationLangNs.addTranslation`.  The result is `Option`
because the notation rewriter is modelled with fuel; `replace_total` shows the
rewriter never actually fails, so `addTranslation` always returns `some`. -/
def addTranslation (st : TranslationLangNs) (path : String) (value : List Char)
    (overwrite keepMarkdown : Bool) : Option TranslationLangNs :=
  if !overwrite && hasKey st.data path then some st
  else
    ((if keepMarkdown then some (replaceAll nomMark nicknameTok value)
      else ValueReplacer.replace (replaceAll nomMark nicknameTok value)).map
      fun w => { st with data := dictSet st.data path (stringToYaml w), modified := true })

/-! Part: The import orchestrator (`FillLocalesTranslations`)

File discovery: the source calls `glob(escape(localesPath) + "/**/*.yml")`
WITHOUT `recursive=True`, so the `**` component is matched by `fnmatch` like
`*`: it matches exactly one (non-hidden) path segment.  A candidate file is
therefore discovered iff its path relative to the locales root has exactly two
components `<dir>/<name>.yml`, both non-hidden.  Paths are modelled as lists
of path components relative to the locales root. -/

/-- Python `s.startswith(pre)` on strings, via the character-list embedding. -/
def strStartsWith (s pre : String) : Bool := leadsWith pre.toList s.toList

/-- Python `s.endswith(suf)` on strings, via the character-list embedding. -/
def strEndsWith (s suf : String) : Bool := leadsWith suf.toList.reverse s.toList.reverse

/-- One `fnmatch` of the `**` component under non-recursive `glob`: any single
non-hidden name. -/
def globComponentAny (d : String) : Bool := !(strStartsWith d ".")

/-- One `fnmatch` of the `*.yml` component: a non-hidden name ending in
`.yml`. -/
def isYmlName (f : String) : Bool := !(strStartsWith f ".") && strEndsWith f ".yml"

/-- The full pattern `<root>/**/*.yml` under non-recursive `glob`: exactly two
components, a non-hidden directory and a non-hidden `*.yml` file name. -/
def globTwoLevelYml (p : List String) : Bool :=
  match p with
  | [d, f] => globComponentAny d && isYmlName f
  | _ => false

/-- Embedding of the discovery step of
`FillLocalesTranslations.loadCurrentTranslations`: the `*.yml` files found by
`glob(escape(localesPath) + "/**/*.yml")` among the existing files. -/
def loadDiscover (files : List (List String)) : List (List String) :=
  files.filter globTwoLevelYml

/-- Embedding of `os.path.splitext(...)[0]`: strip the extension after the
last dot, where the leading dots of the name never count as a separator. -/
def splitextStem (f : String) : String :=
  let cs := f.toList
  let lead := (cs.takeWhile fun c => c == '.').length
  let rest := cs.drop lead
  let revTail := (rest.reverse.takeWhile fun c => !(c == '.')).length
  if revTail == rest.length then f
  else String.mk (cs.take (cs.length - revTail - 1))

/-- The `lang` derived by the source for a discovered file: the last component
of the file's directory (the immediate parent directory name). -/
def discoveredLang (p : List String) : String := p.dropLast.getLastD ""

/-- The `section` derived by the source for a discovered file: the base name
without its extension. -/
def discoveredSection (p : List String) : String := splitextStem (p.getLastD "")

/-! Part: The spreadsheet import (`addTranslationsFromExcel`)

A data row of the "Widgets" sheet (row 2 onward).  The French and English
cells may be null (`None` in Python); the source's guard is `fr is not None`
(and likewise for English) — nullness only, not emptiness.  `keepMarkdown` is
hard-coded to `False` in the source. -/

structure ExcelRow where
  sectionName : String
  pathKey : String
  fr : Option (List Char)
  en : Option (List Char)
deriving DecidableEq

/-- One call made to `TranslationData.addTranslation` by the orchestrator. -/
structure TransCall where
  lang : String
  sectionName : String
  pathKey : String
  value : List Char
  overwrite : Bool
  keepMarkdown : Bool
deriving DecidableEq

/-- The calls the orchestrator makes for one data row of the "Widgets" sheet:
a French call when the French cell is not null, then an English call when the
English cell is not null. -/
def rowCalls (ow : Bool) (r : ExcelRow) : List TransCall :=
  (match r.fr with
    | some v => [⟨"fr", r.sectionName, r.pathKey, v, ow, false⟩]
    | none => []) ++
  (match r.en with
    | some v => [⟨"en", r.sectionName, r.pathKey, v, ow, false⟩]
    | none => [])

/-- Embedding of the row loop of `addTranslationsFromExcel` over the data rows
(row 2 onward) of the "Widgets" sheet. -/
def addTranslationsFromExcel (ow : Bool) (rows : List ExcelRow) : List TransCall :=
  (rows.map (rowCalls ow)).flatten

/-! Part: Fuel elimination: step equations for the fuel-driven functions -/

theorem countOccF_eq (p : List Char) :
    ∀ fuel s, s.length ≤ fuel → countOccF p fuel s = countOcc p s := by
  intro fuel
  induction fuel using Nat.strong_induction_on with
  | _ fuel ih =>
    intro s hs
    cases fuel with
    | zero =>
      have : s = [] := List.eq_nil_of_length_eq_zero (Nat.le_zero.mp hs)
      subst this; rfl
    | succ fuel =>
      cases s with
      | nil => rfl
      | cons c s =>
        have hsf : s.length ≤ fuel := by simpa using hs
        show _ = countOccF p (s.length + 1) (c :: s)
        simp only [countOccF]
        have hd : (s.drop (p.length - 1)).length ≤ s.length := by
          have := List.length_drop (p.length - 1) s
          omega
        by_cases h : leadsWith p (c :: s) = true
        · rw [if_pos h, if_pos h]
          rw [ih fuel (Nat.lt_succ_self _) _ (le_trans hd hsf),
            ih s.length (Nat.lt_succ_of_le hsf) _ hd]
        · rw [if_neg h, if_neg h]
          rw [ih fuel (Nat.lt_succ_self _) _ hsf,
            ih s.length (Nat.lt_succ_of_le hsf) _ (Nat.le_refl _)]

theorem countOcc_nil (p : List Char) : countOcc p [] = 0 := rfl

theorem countOcc_cons_pos {p : List Char} {c : Char} {s : List Char}
    (h : leadsWith p (c :: s) = true) :
    countOcc p (c :: s) = countOcc p (s.drop (p.length - 1)) + 1 := by
  show countOccF p (s.length + 1) (c :: s) = _
  simp only [countOccF, if_pos h]
  have h2 : (s.drop (p.length - 1)).length ≤ s.length := by
    have := List.length_drop (p.length - 1) s
    omega
  rw [countOccF_eq p s.length _ h2]

theorem countOcc_cons_neg {p : List Char} {c : Char} {s : List Char}
    (h : leadsWith p (c :: s) = false) :
    countOcc p (c :: s) = countOcc p s := by
  show countOccF p (s.length + 1) (c :: s) = _
  simp only [countOccF, h]
  rw [if_neg (by simp), countOccF_eq p s.length _ (Nat.le_refl _)]

theorem altReplaceF_eq (p a b : List Char) :
    ∀ fuel k s, s.length ≤ fuel → altReplaceF p a b k fuel s = altReplace p a b k s := by
  intro fuel
  induction fuel using Nat.strong_induction_on with
  | _ fuel ih =>
    intro k s hs
    cases fuel with
    | zero =>
      have : s = [] := List.eq_nil_of_length_eq_zero (Nat.le_zero.mp hs)
      subst this; rfl
    | succ fuel =>
      cases s with
      | nil => rfl
      | cons c s =>
        have hsf : s.length ≤ fuel := by simpa using hs
        show _ = altReplaceF p a b k (s.length + 1) (c :: s)
        simp only [altReplaceF]
        have hd : (s.drop (p.length - 1)).length ≤ s.length := by
          have := List.length_drop (p.length - 1) s
          omega
        by_cases h : leadsWith p (c :: s) = true
        · rw [if_pos h, if_pos h]
          rw [ih fuel (Nat.lt_succ_self _) _ _ (le_trans hd hsf),
            ih s.length (Nat.lt_succ_of_le hsf) _ _ hd]
        · rw [if_neg h, if_neg h]
          rw [ih fuel (Nat.lt_succ_self _) _ _ hsf,
            ih s.length (Nat.lt_succ_of_le hsf) _ _ (Nat.le_refl _)]

theorem altReplace_nil (p a b : List Char) (k : Nat) : altReplace p a b k [] = [] := rfl

theorem altReplace_cons_pos {p : List Char} {c : Char} {s : List Char} (a b : List Char)
    (k : Nat) (h : leadsWith p (c :: s) = true) :
    altReplace p a b k (c :: s) =
      (if k % 2 = 0 then a else b) ++ altReplace p a b (k + 1) (s.drop (p.length - 1)) := by
  show altReplaceF p a b k (s.length + 1) (c :: s) = _
  simp only [altReplaceF, if_pos h]
  have h2 : (s.drop (p.length - 1)).length ≤ s.length := by
    have := List.length_drop (p.length - 1) s
    omega
  rw [altReplaceF_eq p a b s.length _ _ h2]

theorem altReplace_cons_neg {p : List Char} {c : Char} {s : List Char} (a b : List Char)
    (k : Nat) (h : leadsWith p (c :: s) = false) :
    altReplace p a b k (c :: s) = c :: altReplace p a b k s := by
  show altReplaceF p a b k (s.length + 1) (c :: s) = _
  simp only [altReplaceF, h]
  rw [if_neg (by simp), altReplaceF_eq p a b s.length _ _ (Nat.le_refl _)]

/-! Part: Basic facts about `leadsWith` and `occursB` -/

theorem leadsWith_iff {p s : List Char} : leadsWith p s = true ↔ ∃ t, s = p ++ t := by
  induction p generalizing s with
  | nil => simp [leadsWith]
  | cons a p ih =>
    cases s with
    | nil =>
      simp only [leadsWith, List.cons_append]
      constructor
      · intro h; cases h
      · rintro ⟨t, ht⟩; cases ht
    | cons c s =>
      simp only [leadsWith, List.cons_append]
      by_cases hac : a = c
      · subst hac
        rw [if_pos rfl, ih]
        constructor
        · rintro ⟨t, rfl⟩; exact ⟨t, rfl⟩
        · rintro ⟨t, ht⟩
          injection ht with _ h2
          exact ⟨t, h2⟩
      · rw [if_neg hac]
        constructor
        · intro h; cases h
        · rintro ⟨t, ht⟩
          injection ht with h1 _
          exact absurd h1.symm hac

theorem leads_self_append {p t : List Char} : leadsWith p (p ++ t) = true :=
  leadsWith_iff.mpr ⟨t, rfl⟩

theorem leads_append_right {p a b : List Char} (h : leadsWith p a = true) :
    leadsWith p (a ++ b) = true := by
  obtain ⟨t, rfl⟩ := leadsWith_iff.mp h
  exact leadsWith_iff.mpr ⟨t ++ b, by rw [List.append_assoc]⟩

theorem leads_nil_false {p : List Char} (hp : p ≠ []) : leadsWith p [] = false := by
  cases p with
  | nil => exact absurd rfl hp
  | cons a q => rfl

theorem leads_head_eq {x : Char} {w : List Char} {c : Char} {r : List Char}
    (h : leadsWith (x :: w) (c :: r) = true) : x = c := by
  simp only [leadsWith] at h
  by_cases hxc : x = c
  · exact hxc
  · rw [if_neg hxc] at h; cases h

/-- Splitting a prefix fact at an append boundary: either the pattern fits
inside the left part, or it covers the whole left part and continues into the
right part. -/
theorem leads_split {p a b : List Char} (h : leadsWith p (a ++ b) = true) :
    leadsWith p a = true ∨ ∃ w, p = a ++ w ∧ leadsWith w b = true := by
  induction a generalizing p with
  | nil => exact Or.inr ⟨p, rfl, h⟩
  | cons c a ih =>
    cases p with
    | nil => exact Or.inl rfl
    | cons x p' =>
      rw [List.cons_append] at h
      simp only [leadsWith] at h
      by_cases hxc : x = c
      · rw [if_pos hxc] at h
        subst hxc
        rcases ih h with h1 | ⟨w, hw, hwb⟩
        · refine Or.inl ?_
          simp only [leadsWith, if_pos rfl]
          exact h1
        · exact Or.inr ⟨w, by rw [hw, List.cons_append], hwb⟩
      · rw [if_neg hxc] at h; cases h

theorem occursB_exists {p : List Char} (hp : p ≠ []) {s : List Char} :
    occursB p s = true ↔ ∃ q z, s = q ++ z ∧ leadsWith p z = true := by
  induction s with
  | nil =>
    simp only [occursB]
    constructor
    · intro h; cases h
    · rintro ⟨q, z, hqz, hz⟩
      have hz0 : z = [] := (List.append_eq_nil.mp hqz.symm).2
      subst hz0
      rw [leads_nil_false hp] at hz
      cases hz
  | cons c s ih =>
    simp only [occursB, Bool.or_eq_true]
    constructor
    · rintro (h | h)
      · exact ⟨[], c :: s, rfl, h⟩
      · obtain ⟨q, z, hqz, hz⟩ := ih.mp h
        exact ⟨c :: q, z, by rw [hqz, List.cons_append], hz⟩
    · rintro ⟨q, z, hqz, hz⟩
      cases q with
      | nil =>
        refine Or.inl ?_
        rw [List.nil_append] at hqz
        rw [← hqz] at hz
        exact hz
      | cons d q' =>
        refine Or.inr ?_
        rw [List.cons_append] at hqz
        injection hqz with _ h2
        exact ih.mpr ⟨q', z, h2, hz⟩

theorem count_pos_iff {p : List Char} :
    ∀ {s : List Char}, occursB p s = true ↔ 0 < countOcc p s := by
  intro s
  induction s with
  | nil =>
    rw [countOcc_nil]
    simp [occursB]
  | cons c s ih =>
    by_cases h : leadsWith p (c :: s) = true
    · rw [countOcc_cons_pos h]
      simp [occursB, h]
    · have h' : leadsWith p (c :: s) = false := by
        cases hv : leadsWith p (c :: s)
        · rfl
        · exact absurd hv h
      rw [countOcc_cons_neg h']
      simp only [occursB, h', Bool.false_or]
      exact ih

/-! Part: Leftmost-occurrence decomposition -/

theorem suffix_cons_cases {w : List Char} {c : Char} {l : List Char} (h : w <:+ c :: l) :
    w = c :: l ∨ w <:+ l := by
  obtain ⟨q, hq⟩ := h
  cases q with
  | nil =>
    rw [List.nil_append] at hq
    exact Or.inl hq
  | cons d q' =>
    injection hq with _ h2
    exact Or.inr ⟨q', h2⟩

theorem suffix_append_cases {w u t : List Char} (h : w <:+ u ++ t) :
    w <:+ t ∨ ∃ u₂, u₂ <:+ u ∧ w = u₂ ++ t := by
  induction u generalizing w with
  | nil => exact Or.inl h
  | cons c u' ih =>
    rw [List.cons_append] at h
    rcases suffix_cons_cases h with h1 | h1
    · exact Or.inr ⟨c :: u', List.suffix_rfl, by rw [h1, List.cons_append]⟩
    · rcases ih h1 with h2 | ⟨u₂, hu₂, rfl⟩
      · exact Or.inl h2
      · exact Or.inr ⟨u₂, hu₂.trans (List.suffix_cons c u'), rfl⟩

/-- The leftmost occurrence of a (nonempty) pattern splits the string as
`u ++ p ++ v`, with no occurrence starting inside `u`, and `replaceFirst`
rewrites exactly that occurrence. -/
theorem exists_leftmost {p : List Char} (hp : p ≠ []) {s : List Char}
    (h : occursB p s = true) :
    ∃ u v, s = u ++ (p ++ v) ∧ noEarlier p u v ∧
      ∀ r, replaceFirst p r s = u ++ (r ++ v) := by
  induction s with
  | nil => simp [occursB] at h
  | cons c s ih =>
    by_cases hl : leadsWith p (c :: s) = true
    · obtain ⟨t, ht⟩ := leadsWith_iff.mp hl
      refine ⟨[], t, by rw [List.nil_append, ht], ?_, ?_⟩
      · intro u₂ hu₂ hne
        have : u₂ = [] := List.suffix_nil.mp hu₂
        exact absurd this hne
      · intro r
        cases p with
        | nil => exact absurd rfl hp
        | cons ph pt =>
          rw [List.cons_append] at ht
          injection ht with h1 h2
          simp only [replaceFirst, if_pos hl, List.nil_append]
          congr 1
          rw [h2]
          have : (ph :: pt).length - 1 = pt.length := by simp
          rw [this, List.drop_left]
    · have hl' : leadsWith p (c :: s) = false := by
        cases hv : leadsWith p (c :: s)
        · rfl
        · exact absurd hv hl
      have hs : occursB p s = true := by
        have := h
        simp only [occursB, hl', Bool.false_or] at this
        exact this
      obtain ⟨u, v, rfl, hne, hrep⟩ := ih hs
      refine ⟨c :: u, v, by rw [List.cons_append], ?_, ?_⟩
      · intro u₂ hu₂ hne₂
        rcases suffix_cons_cases hu₂ with rfl | h2
        · rw [List.cons_append]
          exact hl'
        · exact hne u₂ h2 hne₂
      · intro r
        simp only [replaceFirst, hl', Bool.false_eq_true, if_false, List.cons_append]
        rw [hrep r]

/-! Part: Scanning past a clean region -/

theorem count_pass {p : List Char} :
    ∀ w x, safeBefore p w x → countOcc p (w ++ x) = countOcc p x := by
  intro w
  induction w with
  | nil => intro x _; rw [List.nil_append]
  | cons c w' ih =>
    intro x hsafe
    have hl : leadsWith p ((c :: w') ++ x) = false :=
      hsafe (c :: w') List.suffix_rfl (by simp)
    rw [List.cons_append] at hl ⊢
    rw [countOcc_cons_neg hl]
    exact ih x fun w₂ hw hne => hsafe w₂ (hw.trans (List.suffix_cons c w')) hne

theorem alt_pass {p a b : List Char} (k : Nat) :
    ∀ w x, safeBefore p w x → altReplace p a b k (w ++ x) = w ++ altReplace p a b k x := by
  intro w
  induction w generalizing k with
  | nil => intro x _; rw [List.nil_append, List.nil_append]
  | cons c w' ih =>
    intro x hsafe
    have hl : leadsWith p ((c :: w') ++ x) = false :=
      hsafe (c :: w') List.suffix_rfl (by simp)
    rw [List.cons_append] at hl ⊢
    rw [altReplace_cons_neg a b k hl, List.cons_append]
    rw [ih k x fun w₂ hw hne => hsafe w₂ (hw.trans (List.suffix_cons c w')) hne]

/-! Part: Counting and alternating through the leftmost decomposition -/

theorem count_decomp {p : List Char} (hp : p ≠ []) :
    ∀ u v, noEarlier p u v → countOcc p (u ++ (p ++ v)) = countOcc p v + 1 := by
  intro u
  induction u with
  | nil =>
    intro v _
    rw [List.nil_append]
    cases p with
    | nil => exact absurd rfl hp
    | cons ph pt =>
      rw [List.cons_append]
      rw [countOcc_cons_pos (by rw [← List.cons_append]; exact leads_self_append)]
      have : (ph :: pt).length - 1 = pt.length := by simp
      rw [this, List.drop_left]
  | cons c u' ih =>
    intro v hne
    have hl : leadsWith p ((c :: u') ++ (p ++ v)) = false :=
      hne (c :: u') List.suffix_rfl (by simp)
    rw [List.cons_append] at hl ⊢
    rw [countOcc_cons_neg hl]
    exact ih v fun u₂ hu hne₂ => hne u₂ (hu.trans (List.suffix_cons c u')) hne₂

theorem alt_decomp {p : List Char} (hp : p ≠ []) (a b : List Char) :
    ∀ u v k, noEarlier p u v →
      altReplace p a b k (u ++ (p ++ v)) =
        u ++ ((if k % 2 = 0 then a else b) ++ altReplace p a b (k + 1) v) := by
  intro u
  induction u with
  | nil =>
    intro v k _
    rw [List.nil_append, List.nil_append]
    cases p with
    | nil => exact absurd rfl hp
    | cons ph pt =>
      rw [List.cons_append]
      rw [altReplace_cons_pos a b k (by rw [← List.cons_append]; exact leads_self_append)]
      have : (ph :: pt).length - 1 = pt.length := by simp
      rw [this, List.drop_left]
  | cons c u' ih =>
    intro v k hne
    have hl : leadsWith p ((c :: u') ++ (p ++ v)) = false :=
      hne (c :: u') List.suffix_rfl (by simp)
    rw [List.cons_append] at hl ⊢
    rw [altReplace_cons_neg a b k hl, List.cons_append]
    rw [ih v k fun u₂ hu hne₂ => hne u₂ (hu.trans (List.suffix_cons c u')) hne₂]

theorem alt_of_not_occurs {p a b : List Char} {s : List Char}
    (h : occursB p s = false) (k : Nat) : altReplace p a b k s = s := by
  induction s with
  | nil => rfl
  | cons c s ih =>
    simp only [occursB, Bool.or_eq_false_iff] at h
    rw [altReplace_cons_neg a b k h.1]
    rw [ih h.2]

theorem getLast?_of_suffix {w t : List Char} (h : w <:+ t) (hw : w ≠ []) :
    w.getLast? = t.getLast? := by
  obtain ⟨q, rfl⟩ := h
  rw [List.getLast?_append]
  cases hwl : w.getLast? with
  | none => exact absurd (List.getLast?_eq_none_iff.mp hwl) hw
  | some a => rfl

theorem occursB_of_suffix_leads {p w t : List Char} (hp : p ≠ [])
    (hw : w <:+ t) (h : leadsWith p w = true) : occursB p t = true := by
  obtain ⟨q, rfl⟩ := hw
  obtain ⟨z, rfl⟩ := leadsWith_iff.mp h
  exact (occursB_exists hp).mpr ⟨q, p ++ z, rfl, leads_self_append⟩

/-- Core safety argument: past the leftmost occurrence, replacing `p` by a tag
satisfying `ruleOk` leaves a region (`u ++ t`) in which no occurrence of `p`
can start. -/
theorem safe_of_ruleOk {p t : List Char} (hr : ruleOk p t = true) {u v : List Char}
    (hne : noEarlier p u v) : safeBefore p (u ++ t) v := by
  obtain ⟨hp, ht, hlt, hgt, hocc, hhead, hlast⟩ := of_decide_eq_true hr
  intro w₂ hw hne₂
  cases hlw : leadsWith p (w₂ ++ v) with
  | false => rfl
  | true =>
    exfalso
    rcases suffix_append_cases hw with hwt | ⟨u₂, hu₂, rfl⟩
    · -- the occurrence would start inside the inserted tag
      rcases leads_split hlw with h1 | ⟨w', hpw, hw'⟩
      · exact absurd (occursB_of_suffix_leads hp hwt h1) (by rw [hocc]; simp)
      · -- the tag ends with `>`, so `>` would be a character of `p`
        have hw2last : w₂.getLast? = some '>' :=
          (getLast?_of_suffix hwt hne₂).trans hlast
        have hmem : '>' ∈ w₂ := List.mem_of_getLast?_eq_some hw2last
        exact hgt (by rw [hpw]; exact List.mem_append_left _ hmem)
    · -- the occurrence would start inside `u`, before the leftmost one
      rw [List.append_assoc] at hlw
      rcases leads_split hlw with h1 | ⟨w', hpw, hw'⟩
      · by_cases hu₂nil : u₂ = []
        · rw [hu₂nil, leads_nil_false hp] at h1
          cases h1
        · have h1' : leadsWith p (u₂ ++ (p ++ v)) = true := leads_append_right h1
          rw [hne u₂ hu₂ hu₂nil] at h1'
          cases h1'
      · rcases leads_split hw' with h2 | ⟨w'', hww, hw''⟩
        · by_cases hw'nil : w' = []
          · have hpu : p = u₂ := by rw [hpw, hw'nil, List.append_nil]
            have hu₂ne : u₂ ≠ [] := by rw [← hpu]; exact hp
            have hl2 : leadsWith p (u₂ ++ (p ++ v)) = true := by
              rw [hpu]; exact leads_self_append
            rw [hne u₂ hu₂ hu₂ne] at hl2
            cases hl2
          · -- the tag starts with `<`, so `<` would be a character of `p`
            obtain ⟨x, w₃, hxw⟩ := List.exists_cons_of_ne_nil hw'nil
            cases t with
            | nil => exact absurd rfl ht
            | cons tc tt =>
              have htc : tc = '<' := by simpa using hhead
              have hx : x = tc := by
                rw [hxw] at h2
                exact leads_head_eq h2
              apply hlt
              rw [hpw, hxw, hx, htc]
              exact List.mem_append_right _ (List.mem_cons_self _ _)
        · -- `w'` swallows the whole tag, so `>` would be a character of `p`
          have hmem : '>' ∈ t := List.mem_of_getLast?_eq_some hlast
          apply hgt
          rw [hpw, hww]
          exact List.mem_append_right _ (List.mem_append_left _ hmem)

/-- Replacing the leftmost occurrence of the delimiter by a `ruleOk` tag
removes exactly one occurrence. -/
theorem count_replaceFirst {p t s : List Char} (hr : ruleOk p t = true)
    (h : occursB p s = true) :
    countOcc p (replaceFirst p t s) = countOcc p s - 1 := by
  have hp : p ≠ [] := (of_decide_eq_true hr).1
  obtain ⟨u, v, rfl, hne, hrep⟩ := exists_leftmost hp h
  rw [hrep t, count_decomp hp u v hne]
  have hsafe : safeBefore p (u ++ t) v := safe_of_ruleOk hr hne
  have : u ++ (t ++ v) = (u ++ t) ++ v := by rw [List.append_assoc]
  rw [this, count_pass (u ++ t) v hsafe]
  omega

theorem loop_eq {p a b : List Char} (ha : ruleOk p a = true) (hb : ruleOk p b = true) :
    ∀ n k s, countOcc p s = n → replLoop p a b k n s = some (altReplace p a b k s) := by
  have hp : p ≠ [] := (of_decide_eq_true ha).1
  intro n
  induction n with
  | zero =>
    intro k s h0
    have hocc : occursB p s = false := by
      cases hoc : occursB p s
      · rfl
      · have := count_pos_iff.mp hoc
        omega
    simp only [replLoop, hocc, Bool.false_eq_true, if_false]
    rw [alt_of_not_occurs hocc k]
  | succ n ih =>
    intro k s h
    have hocc : occursB p s = true := count_pos_iff.mpr (by omega)
    obtain ⟨u, v, rfl, hne, hrep⟩ := exists_leftmost hp hocc
    have hrt : ruleOk p (if k % 2 = 0 then a else b) = true := by
      by_cases hk : k % 2 = 0
      · rw [if_pos hk]; exact ha
      · rw [if_neg hk]; exact hb
    simp only [replLoop, hocc, if_true]
    rw [hrep (if k % 2 = 0 then a else b)]
    have hcnt : countOcc p (u ++ ((if k % 2 = 0 then a else b) ++ v)) = n := by
      have hdec := count_replaceFirst hrt hocc
      rw [hrep (if k % 2 = 0 then a else b)] at hdec
      rw [hdec, h]
      omega
    rw [ih (k + 1) _ hcnt]
    congr 1
    have hsafe : safeBefore p (u ++ (if k % 2 = 0 then a else b)) v :=
      safe_of_ruleOk hrt hne
    have hassoc : u ++ ((if k % 2 = 0 then a else b) ++ v) =
        (u ++ (if k % 2 = 0 then a else b)) ++ v := by rw [List.append_assoc]
    rw [hassoc, alt_pass (k + 1) _ v hsafe, alt_decomp hp a b u v k hne,
      List.append_assoc]

theorem replaceStartEnd_eq {p a b : List Char} (ha : ruleOk p a = true)
    (hb : ruleOk p b = true) (s : List Char) :
    replaceStartEnd s p a b = some (specStage s p a b) := by
  unfold replaceStartEnd specStage
  by_cases h : (occursB p s && countOcc p s % 2 == 0) = true
  · rw [if_pos h, if_pos h]
    exact loop_eq ha hb _ 0 s rfl
  · rw [if_neg h, if_neg h]

theorem ruleOk_bold_start : ruleOk ValueReplacer.boldMark ValueReplacer.startBoldHtml = true := by
  decide

theorem ruleOk_bold_end : ruleOk ValueReplacer.boldMark ValueReplacer.endBoldHtml = true := by
  decide

theorem ruleOk_oblique_start :
    ruleOk ValueReplacer.obliqueMark ValueReplacer.startOblique = true := by decide

theorem ruleOk_oblique_end :
    ruleOk ValueReplacer.obliqueMark ValueReplacer.endOblique = true := by decide

theorem ruleOk_green_start :
    ruleOk ValueReplacer.greenMark ValueReplacer.startGreen = true := by decide

theorem ruleOk_green_end :
    ruleOk ValueReplacer.greenMark ValueReplacer.endGreen = true := by decide

theorem ruleOk_red_start : ruleOk ValueReplacer.redMark ValueReplacer.startRed = true := by
  decide

theorem ruleOk_red_end : ruleOk ValueReplacer.redMark ValueReplacer.endRed = true := by
  decide

theorem replace_eq_spec (s : List Char) :
    ValueReplacer.replace s = some (specRewrite s) := by
  unfold ValueReplacer.replace specRewrite
  rw [replaceStartEnd_eq ruleOk_bold_start ruleOk_bold_end, Option.some_bind,
    replaceStartEnd_eq ruleOk_oblique_start ruleOk_oblique_end, Option.some_bind,
    replaceStartEnd_eq ruleOk_green_start ruleOk_green_end, Option.some_bind,
    replaceStartEnd_eq ruleOk_red_start ruleOk_red_end]

theorem replace_total (s : List Char) : (ValueReplacer.replace s).isSome = true := by
  rw [replace_eq_spec]
  rfl


/-! Part: Association-list dictionary lemmas -/

theorem find?_set_of_any {d : List (String × YamlScalar)} {k : String} (v : YamlScalar)
    (h : (d.any fun kv => kv.1 == k) = true) :
    ((d.map fun kv => if kv.1 == k then (kv.1, v) else kv).find? fun kv => kv.1 == k) =
      some (k, v) := by
  induction d with
  | nil => cases h
  | cons hd tl ih =>
    by_cases hk : (hd.1 == k) = true
    · have hk' : hd.1 = k := by simpa using hk
      rw [List.map_cons, if_pos hk, List.find?_cons_of_pos _ (by simpa using hk), hk']
    · have hk0 : (hd.1 == k) = false := by
        cases hv : hd.1 == k
        · rfl
        · exact absurd hv hk
      rw [List.map_cons, if_neg (by rw [hk0]; simp), List.find?_cons_of_neg _ (by simp [hk0])]
      apply ih
      simpa [hk0] using h

theorem find?_append_of_not_any {d : List (String × YamlScalar)} {k : String} (v : YamlScalar)
    (h : (d.any fun kv => kv.1 == k) = false) :
    ((d ++ [(k, v)]).find? fun kv => kv.1 == k) = some (k, v) := by
  induction d with
  | nil =>
    rw [List.nil_append]
    exact List.find?_cons_of_pos _ (by simp)
  | cons hd tl ih =>
    simp only [List.any_cons, Bool.or_eq_false_iff] at h
    rw [List.cons_append, List.find?_cons_of_neg _ (by simp [h.1])]
    exact ih h.2

theorem lookup_dictSet (d : List (String × YamlScalar)) (k : String) (v : YamlScalar) :
    lookupKey (dictSet d k v) k = some v := by
  unfold dictSet lookupKey
  by_cases h : hasKey d k = true
  · rw [if_pos h, find?_set_of_any v (by simpa [hasKey] using h)]
    rfl
  · have h0 : hasKey d k = false := by
      cases hv : hasKey d k
      · rfl
      · exact absurd hv h
    rw [if_neg (by rw [h0]; simp), find?_append_of_not_any v (by simpa [hasKey] using h0)]
    rfl

/-! Part: Claim theorems -/

/-- Claim C3: for every input string and every delimiter with its tag pair, if
the delimiter occurs an odd number of times in the string handed to that
rewrite stage, `replaceStartEnd` returns its input unchanged — the delimiter is
left entirely as literal text. -/
theorem C3_odd_count_untouched :
    ∀ (s p a b : List Char), countOcc p s % 2 = 1 → replaceStartEnd s p a b = some s := by
  intro s p a b h
  unfold replaceStartEnd
  have hbeq : (countOcc p s % 2 == 0) = false := by
    rw [h]
    rfl
  rw [hbeq, Bool.and_false]
  simp

/-- Witness for C3: `"**a"` contains `**` once (odd), and the bold stage
leaves it untouched. -/
theorem C3_witness :
    countOcc ValueReplacer.boldMark ("**a".toList) % 2 = 1 ∧
    replaceStartEnd ("**a".toList) ValueReplacer.boldMark ValueReplacer.startBoldHtml
      ValueReplacer.endBoldHtml = some ("**a".toList) :=
  ⟨by decide, C3_odd_count_untouched _ _ _ _ (by decide)⟩

/-- Claim C4: `ValueReplacer.replace` first replaces every newline by the
literal text `<br />`, then runs the four delimiter stages in the fixed order
bold (`**`), oblique (`__`), green (`_green_`), red (`_red_`), each stage
operating on the current string; a stage whose delimiter occurs an even,
positive number of times replaces the occurrences alternately by the start and
end tag, consuming left to right (1st start, 2nd end, 3rd start, …).  This is
exactly the single-pass alternating pipeline `specRewrite`, and in particular
`rewrite("a\nb") = "a<br />b"` and `rewrite("**bold**") =
"<strong>bold</strong>"`. -/
theorem C4_pipeline :
    (∀ s : List Char, ValueReplacer.replace s = some (specRewrite s)) ∧
    ValueReplacer.replace ("a\nb".toList) = some ("a<br />b".toList) ∧
    ValueReplacer.replace ("**bold**".toList) = some ("<strong>bold</strong>".toList) :=
  ⟨replace_eq_spec, by decide, by decide⟩

/-- Claim C10: for each of the four delimiter rules, no tag contains the
delimiter (nor the characters that could recreate one across an insertion
boundary), replacing a single occurrence with either tag strictly decreases
the number of remaining occurrences, and consequently the rewrite loop
terminates: the whole rewriter is total (always returns `some`). -/
theorem C10_replacement_terminates :
    (∀ r ∈ markRules, ruleOk r.1 r.2.1 = true ∧ ruleOk r.1 r.2.2 = true) ∧
    (∀ r ∈ markRules, ∀ s, occursB r.1 s = true →
        countOcc r.1 (replaceFirst r.1 r.2.1 s) < countOcc r.1 s ∧
        countOcc r.1 (replaceFirst r.1 r.2.2 s) < countOcc r.1 s) ∧
    (∀ s, (ValueReplacer.replace s).isSome = true) := by
  have hrules : ∀ r ∈ markRules, ruleOk r.1 r.2.1 = true ∧ ruleOk r.1 r.2.2 = true := by
    intro r hr
    simp only [markRules, List.mem_cons, List.not_mem_nil, or_false] at hr
    rcases hr with rfl | rfl | rfl | rfl
    · exact ⟨ruleOk_bold_start, ruleOk_bold_end⟩
    · exact ⟨ruleOk_oblique_start, ruleOk_oblique_end⟩
    · exact ⟨ruleOk_green_start, ruleOk_green_end⟩
    · exact ⟨ruleOk_red_start, ruleOk_red_end⟩
  refine ⟨hrules, ?_, replace_total⟩
  intro r hr s hs
  obtain ⟨h1, h2⟩ := hrules r hr
  have hpos : 0 < countOcc r.1 s := count_pos_iff.mp hs
  constructor
  · have := count_replaceFirst h1 hs
    omega
  · have := count_replaceFirst h2 hs
    omega

/-- Witness for C10: the bold rule is one of the four rules, and replacing the
first `**` of `"**a**"` with its start tag drops the count from 2 to 1. -/
theorem C10_witness :
    countOcc ValueReplacer.boldMark
        (replaceFirst ValueReplacer.boldMark ValueReplacer.startBoldHtml ("**a**".toList)) <
      countOcc ValueReplacer.boldMark ("**a**".toList) :=
  (C10_replacement_terminates.2.1
    (ValueReplacer.boldMark, ValueReplacer.startBoldHtml, ValueReplacer.endBoldHtml)
    (by simp [markRules]) ("**a**".toList) (by decide)).1

/-- Claim C5: if the path is already present and `overwrite` is false,
`addTranslation` leaves the entire store state unchanged (same data, same
`modified` flag, same file); with `overwrite` true the value stored at that
path is replaced (by the processed value) and `modified` becomes true. -/
theorem C5_overwrite_semantics :
    ∀ (st : TranslationLangNs) (p : String) (v : List Char) (km : Bool),
      hasKey st.data p = true →
      addTranslation st p v false km = some st ∧
      ∃ w, (if km then some (replaceAll nomMark nicknameTok v)
            else ValueReplacer.replace (replaceAll nomMark nicknameTok v)) = some w ∧
        addTranslation st p v true km =
          some { st with data := dictSet st.data p (stringToYaml w), modified := true } ∧
        lookupKey (dictSet st.data p (stringToYaml w)) p = some (stringToYaml w) := by
  intro st p v km h
  constructor
  · unfold addTranslation
    rw [if_pos (by rw [h]; rfl)]
  · cases km with
    | false =>
      refine ⟨specRewrite (replaceAll nomMark nicknameTok v), ?_, ?_, lookup_dictSet _ _ _⟩
      · rw [if_neg (by simp)]
        exact replace_eq_spec _
      · unfold addTranslation
        rw [if_neg (by simp), if_neg (by simp), replace_eq_spec]
        rfl
    | true =>
      refine ⟨replaceAll nomMark nicknameTok v, by simp, ?_, lookup_dictSet _ _ _⟩
      unfold addTranslation
      rw [if_neg (by simp), if_pos rfl]
      rfl

/-- Witness for C5: a store already holding the key `"k"` is returned
completely unchanged by a non-overwriting `addTranslation`. -/
theorem C5_witness :
    hasKey [("k", YamlScalar.inline [])] "k" = true ∧
    addTranslation ⟨false, [("k", YamlScalar.inline [])], "f"⟩ "k" ("x".toList) false true =
      some ⟨false, [("k", YamlScalar.inline [])], "f"⟩ :=
  ⟨by decide,
    (C5_overwrite_semantics ⟨false, [("k", YamlScalar.inline [])], "f"⟩ "k" ("x".toList) true
      (by decide)).1⟩

/-- Claim C6: the on-disk scalar representation is derived solely from the
value's content — folded iff the string contains a newline or is longer than
76 characters, inline otherwise (76 characters stay inline, 77 fold) — and the
very same `stringToYaml` rule is applied both when a value is set by
`addTranslation` and when a value is loaded unchanged from disk. -/
theorem C6_scalar_style :
    (∀ s : List Char, stringToYaml s = YamlScalar.folded s ↔ ('\n' ∈ s ∨ 76 < s.length)) ∧
    (∀ s : List Char, stringToYaml s = YamlScalar.inline s ↔ ('\n' ∉ s ∧ s.length ≤ 76)) ∧
    stringToYaml (List.replicate 76 'a') = YamlScalar.inline (List.replicate 76 'a') ∧
    stringToYaml (List.replicate 77 'a') = YamlScalar.folded (List.replicate 77 'a') ∧
    (∀ (st : TranslationLangNs) (entries : List (String × List Char)),
      loadCurrentTranslations st (some entries) =
        Except.ok { st with
          data := entries.foldl (fun acc kv => dictSet acc kv.1 (stringToYaml kv.2)) [] }) ∧
    (∀ (st : TranslationLangNs) (p : String) (v : List Char),
      addTranslation st p v true true =
        some { st with
          data := dictSet st.data p (stringToYaml (replaceAll nomMark nicknameTok v)),
          modified := true }) := by
  refine ⟨?_, ?_, by decide, by decide, fun st entries => rfl, fun st p v => ?_⟩
  · intro s
    unfold stringToYaml
    by_cases h1 : '\n' ∈ s
    · simp [h1]
    · by_cases h2 : 76 < s.length
      · simp [h1, h2]
      · simp [h1, h2, Nat.le_of_not_lt h2]
  · intro s
    unfold stringToYaml
    by_cases h1 : '\n' ∈ s
    · simp [h1]
    · by_cases h2 : 76 < s.length
      · simp [h1, h2]
      · simp [h1, h2, Nat.le_of_not_lt h2]
  · unfold addTranslation
    rw [if_neg (by simp), if_pos rfl]
    rfl

/-- Claim C7: a store that was only loaded (constructed, then
`loadCurrentTranslations`, with no `addTranslation` call) has `modified =
false`, so `save` performs no write at all. -/
theorem C7_clean_store_not_written :
    ∀ (f : String) (parsed : Option (List (String × List Char))) (st' : TranslationLangNs),
      loadCurrentTranslations (initTranslationLangNs f) parsed = Except.ok st' →
      st'.modified = false ∧ save st' = none := by
  intro f parsed st' h
  cases parsed with
  | none => exact absurd h (by simp [loadCurrentTranslations])
  | some entries =>
    simp only [loadCurrentTranslations, Except.ok.injEq] at h
    subst h
    exact ⟨rfl, rfl⟩

/-- Witness for C7: loading one entry into a fresh store leaves it clean and
`save` writes nothing. -/
theorem C7_witness :
    (⟨false, [("title", YamlScalar.inline ("Bienvenue".toList))], "fr/home.yml"⟩ :
        TranslationLangNs).modified = false ∧
    save ⟨false, [("title", YamlScalar.inline ("Bienvenue".toList))], "fr/home.yml"⟩ = none :=
  C7_clean_store_not_written "fr/home.yml" (some [("title", "Bienvenue".toList)]) _ rfl

/-- Claim C8: with `overwrite = true`, `addTranslation` first substitutes every
occurrence of the literal placeholder `[nom]` by the token `{{nickname}}`; with
`keepMarkdown = true` the result is stored verbatim (no notation rewriting), so
`addTranslation(path, "Bonjour [nom]", overwrite := true, keepMarkdown := true)`
stores exactly `"Bonjour {{nickname}}"`; with `keepMarkdown = false` the result
additionally goes through the notation rewriter before being stored. -/
theorem C8_placeholder_substitution :
    (∀ (st : TranslationLangNs) (p : String) (v : List Char),
      addTranslation st p v true true =
        some { st with
          data := dictSet st.data p (stringToYaml (replaceAll nomMark nicknameTok v)),
          modified := true }) ∧
    (∀ (st : TranslationLangNs) (p : String) (v : List Char),
      ∃ w, ValueReplacer.replace (replaceAll nomMark nicknameTok v) = some w ∧
        addTranslation st p v true false =
          some { st with data := dictSet st.data p (stringToYaml w), modified := true }) ∧
    replaceAll nomMark nicknameTok ("Bonjour [nom]".toList) =
      "Bonjour \x7b\x7bnickname\x7d\x7d".toList ∧
    addTranslation (initTranslationLangNs "f") "p" ("Bonjour [nom]".toList) true true =
      some ⟨true, [("p", YamlScalar.inline ("Bonjour \x7b\x7bnickname\x7d\x7d".toList))], "f"⟩ := by
  refine ⟨fun st p v => ?_, fun st p v => ?_, by decide, by decide⟩
  · unfold addTranslation
    rw [if_neg (by simp), if_pos rfl]
    rfl
  · refine ⟨specRewrite (replaceAll nomMark nicknameTok v), replace_eq_spec _, ?_⟩
    unfold addTranslation
    rw [if_neg (by simp), if_neg (by simp), replace_eq_spec]
    rfl

/-- Claim C9: when the bound file's content fails to parse as an ordered
string-keyed mapping, `loadCurrentTranslations` raises an error whose message
names the offending file path. -/
theorem C9_load_error_names_file :
    ∀ st : TranslationLangNs,
      loadCurrentTranslations st none =
        Except.error ("Error loading translation yaml file " ++ st.file) ∧
      ∃ pre : String, "Error loading translation yaml file " ++ st.file = pre ++ st.file :=
  fun st => ⟨rfl, "Error loading translation yaml file ", rfl⟩

/-- Counterexample to claim C1 as stated: discovery is NOT recursive.  The
claim says every existing `*.yml` file anywhere under the locales root, at any
nesting depth, is discovered; but a file at depth three
(`a/b/c.yml`) is not matched by the non-recursive glob pattern `**/*.yml`. -/
theorem C1_counterexample :
    ¬ (∀ (files : List (List String)) (p : List String),
        p ∈ files → strEndsWith (p.getLastD "") ".yml" = true → p ∈ loadDiscover files) := by
  intro h
  have hmem := h [["a", "b", "c.yml"]] ["a", "b", "c.yml"] (by simp) (by decide)
  simp [loadDiscover, globTwoLevelYml] at hmem

/-- Claim C1, amended: `loadCurrentTranslations` discovers exactly the
existing `*.yml` files lying exactly one directory below the locales root
(`<root>/<dir>/<name>.yml`, hidden names excluded — `glob` is called without
`recursive=True`, so `**` matches a single path segment), and for each
discovered file it registers one store with `language` taken from the
immediate parent directory name and `section` from the file's base name
without extension. -/
theorem C1_depth_two_discovery :
    ∀ (files : List (List String)) (p : List String),
      (p ∈ loadDiscover files ↔ p ∈ files ∧ globTwoLevelYml p = true) ∧
      (globTwoLevelYml p = true ↔ ∃ d f, p = [d, f] ∧ strStartsWith d "." = false ∧
          strStartsWith f "." = false ∧ strEndsWith f ".yml" = true) ∧
      (∀ d f, p = [d, f] → discoveredLang p = d ∧ discoveredSection p = splitextStem f) := by
  intro files p
  refine ⟨List.mem_filter, ?_, ?_⟩
  · match p with
    | [] =>
      simp [globTwoLevelYml]
    | [d] =>
      constructor
      · intro h; cases h
      · rintro ⟨d', f', h, -⟩; cases h
    | [d, f] =>
      simp only [globTwoLevelYml, globComponentAny, isYmlName, Bool.and_eq_true,
        Bool.not_eq_true']
      constructor
      · rintro ⟨h1, h2, h3⟩
        exact ⟨d, f, rfl, h1, h2, h3⟩
      · rintro ⟨d', f', heq, h1, h2, h3⟩
        injection heq with e1 e2
        injection e2 with e2 _
        subst e1; subst e2
        exact ⟨h1, h2, h3⟩
    | d :: f :: g :: rest =>
      constructor
      · intro h; cases h
      · rintro ⟨d', f', h, -⟩
        injection h with _ h2
        injection h2 with _ h3
        cases h3
  · rintro d f rfl
    exact ⟨rfl, rfl⟩

/-- Witness for C1 (amended): a file `fr/home.yml` registers language `"fr"`
and section `splitextStem "home.yml" = "home"`. -/
theorem C1_witness :
    (discoveredLang ["fr", "home.yml"] = "fr" ∧
      discoveredSection ["fr", "home.yml"] = splitextStem "home.yml") ∧
    splitextStem "home.yml" = "home" :=
  ⟨(C1_depth_two_discovery [["fr", "home.yml"]] ["fr", "home.yml"]).2.2 "fr" "home.yml" rfl,
    by decide⟩

/-- Counterexample to claim C2 as stated: the source guards only against null
cells (`fr is not None`), not against empty strings, so a row whose French
cell holds the empty string DOES produce a French `addTranslation` call. -/
theorem C2_counterexample :
    ¬ (∀ (ow : Bool) (r : ExcelRow),
        (((rowCalls ow r).any fun c => c.lang == "fr") = true ↔
          (r.fr ≠ none ∧ r.fr ≠ some [])) ∧
        (((rowCalls ow r).any fun c => c.lang == "en") = true ↔
          (r.en ≠ none ∧ r.en ≠ some []))) := by
  intro h
  have h2 := ((h false ⟨"s", "k", some [], none⟩).1).mp (by decide)
  exact h2.2 rfl

/-- Claim C2, amended: for every data row, the orchestrator calls the index's
`addTranslation` for French iff the French cell is non-null (an empty-string
cell still adds a translation), and independently for English iff the English
cell is non-null; every call carries the run's global `overwrite` flag and
`keepMarkdown = false`. -/
theorem C2_nonnull_calls :
    ∀ (ow : Bool) (r : ExcelRow),
      (((rowCalls ow r).any fun c => c.lang == "fr") = true ↔ r.fr ≠ none) ∧
      (((rowCalls ow r).any fun c => c.lang == "en") = true ↔ r.en ≠ none) ∧
      (∀ c ∈ rowCalls ow r, c.overwrite = ow ∧ c.keepMarkdown = false) := by
  intro ow r
  obtain ⟨sec, pk, fr, en⟩ := r
  have hfr : (("fr" : String) == "fr") = true := by decide
  have hen : (("en" : String) == "en") = true := by decide
  have hef : (("en" : String) == "fr") = false := by decide
  have hfe : (("fr" : String) == "en") = false := by decide
  cases fr <;> cases en <;> simp_all [rowCalls]

/-- Witness for C2 (amended): a row whose French cell is the empty string
produces exactly one call, a French one with the run's flags. -/
theorem C2_witness :
    (⟨"fr", "s", "k", [], false, false⟩ : TransCall) ∈
        rowCalls false ⟨"s", "k", some [], none⟩ ∧
    ((⟨"fr", "s", "k", [], false, false⟩ : TransCall).overwrite = false ∧
      (⟨"fr", "s", "k", [], false, false⟩ : TransCall).keepMarkdown = false) :=
  ⟨by decide,
    (C2_nonnull_calls false ⟨"s", "k", some [], none⟩).2.2 _ (by decide)⟩

end Evolution
